import Mathlib

/-!
# Circle area (`CPP/study.cpp`)

The program is

```
template <class T> constexpr T pi = static_cast<T>(3.1415926535897932385);
template <class T> T area_of_circle_with_radius(T r) { return pi<T> * r * r; }
```

and `main` calls it at `double` with radius `5.0`.

The numeric representation `T` is embedded as a binary floating-point format
with round-to-nearest, ties-to-even arithmetic (IEEE 754), modelled exactly
with natural-number arithmetic: a finite value of a format with least
positive value `2^(-E)` is a sign and a natural number `n` of units of
`2^(-E)`.
-/

namespace Study

/-- A binary floating-point format: `p` bits of precision, least positive
value `2^(-E)`, and finite magnitudes strictly below `2^W` units of `2^(-E)`
(so the largest binary exponent is `W - E - 1`). -/
structure Format where
  p : Nat
  E : Nat
  W : Nat
deriving DecidableEq, Repr

/-- C++ `double` (IEEE 754 binary64): 53 bits, least subnormal `2^(-1074)`,
overflow threshold `2^1024`. -/
def binary64 : Format := ⟨53, 1074, 2098⟩

/-- C++ `float` (IEEE 754 binary32): 24 bits, least subnormal `2^(-149)`,
overflow threshold `2^128`. -/
def binary32 : Format := ⟨24, 149, 277⟩

/-- The formats considered: at least one bit of precision, and `4` is a
finite value (it is `2^(E+2)` units), so that pi fits. Every IEEE 754 binary
format satisfies this. -/
def Format.Valid (f : Format) : Prop := 1 ≤ f.p ∧ f.E + 2 < f.W

instance (f : Format) : Decidable f.Valid := by
  unfold Format.Valid; infer_instance

/-- A value of the format `f`: NaN, a signed infinity, or a signed finite
magnitude of `n` units of `2^(-f.E)` (`neg = true` is the sign bit, so
`fin true 0` is the negative zero). -/
inductive FP (f : Format) where
  | nan : FP f
  | inf (neg : Bool) : FP f
  | fin (neg : Bool) (n : Nat) : FP f
deriving DecidableEq, Repr

/-- Binary digit count by repeated halving, at most `fuel` halvings. -/
def bitLenAux : Nat → Nat → Nat
  | 0, _ => 0
  | fuel + 1, n => if n = 0 then 0 else bitLenAux fuel (n / 2) + 1

/-- Number of binary digits of `n` (`0` for `0`): `n` halvings always
suffice. -/
def bitLen (n : Nat) : Nat := bitLenAux n n

/-- The integer nearest to `a / D`, the even one of the two on a tie. -/
def roundQuot (a D : Nat) : Nat :=
  if D < 2 * (a % D) ∨ (2 * (a % D) = D ∧ (a / D) % 2 = 1) then a / D + 1 else a / D

/-- Round-to-nearest, ties-to-even, of the non-negative rational `a / b`
(counted in units of `2^(-f.E)`) to `f.p` significant bits, with no bound on
the exponent above; the result is again a number of units. A value with `L`
binary digits before the point is rounded to a multiple of `2^(L - f.p)`
units, and below `2^f.p` units the spacing is one unit (gradual
underflow). -/
def rndMag (f : Format) (a b : Nat) : Nat :=
  let k := bitLen (a / b) - f.p
  roundQuot a (b * 2 ^ k) * 2 ^ k

/-- Rounding of `± a / b` units into the format: a rounded magnitude that
reaches `2^f.W` overflows to the infinity of that sign. -/
def roundNE (f : Format) (neg : Bool) (a b : Nat) : FP f :=
  if 2 ^ f.W ≤ rndMag f a b then FP.inf neg else FP.fin neg (rndMag f a b)

namespace FP

variable {f : Format}

/-- The product `x * y` in the format `f`. -/
def mul : FP f → FP f → FP f
  | nan, _ => nan
  | _, nan => nan
  | inf s, inf t => inf (xor s t)
  | inf s, fin t n => if n = 0 then nan else inf (xor s t)
  | fin s m, inf t => if m = 0 then nan else inf (xor s t)
  | fin s m, fin t n => roundNE f (xor s t) (m * n) (2 ^ f.E)

instance : Mul (FP f) := ⟨mul⟩

/-- Conversion `static_cast<T>(x)` between formats. -/
def cast {g : Format} (f : Format) : FP g → FP f
  | nan => nan
  | inf s => inf s
  | fin s n => roundNE f s (n * 2 ^ f.E) (2 ^ g.E)

/-- The value of a decimal literal `digits / 10^scale` in the format. -/
def ofDecimal (f : Format) (digits scale : Nat) : FP f :=
  roundNE f false (digits * 2 ^ f.E) (10 ^ scale)

/-- Unary minus. -/
def neg : FP f → FP f
  | nan => nan
  | inf s => inf (!s)
  | fin s n => fin (!s) n

/-- Absolute value (`std::fabs`). -/
def abs : FP f → FP f
  | nan => nan
  | inf _ => inf false
  | fin _ n => fin false n

/-- Finite values: neither NaN nor an infinity. -/
def isFinite : FP f → Bool
  | fin _ _ => true
  | _ => false

/-- NaN test. -/
def isNaN : FP f → Bool
  | nan => true
  | _ => false

/-- Infinity test. -/
def isInf : FP f → Bool
  | inf _ => true
  | _ => false

/-- Signed number of units of a finite value. -/
def units (s : Bool) (n : Nat) : Int := if s then -(n : Int) else (n : Int)

/-- The comparison `x <= y`: false as soon as an operand is NaN. -/
def le : FP f → FP f → Bool
  | nan, _ => false
  | _, nan => false
  | inf s, inf t => s || !t
  | inf s, fin _ _ => s
  | fin _ _, inf t => !t
  | fin s m, fin t n => decide (units s m ≤ units t n)

/-- The comparison `x == y`: false as soon as an operand is NaN, and the two
zeros are equal. -/
def eq : FP f → FP f → Bool
  | nan, _ => false
  | _, nan => false
  | inf s, inf t => s == t
  | inf _, fin _ _ => false
  | fin _ _, inf _ => false
  | fin s m, fin t n => decide (units s m = units t n)

/-- The values a variable of the format can hold: every NaN and infinity,
and the finite magnitudes below `2^f.W` whose binary digits fit in `f.p`
bits. -/
def Representable : FP f → Prop
  | fin _ n => n < 2 ^ f.W ∧ 2 ^ (bitLen n - f.p) ∣ n
  | _ => True

instance (x : FP f) : Decidable (Representable x) := by
  cases x <;> unfold Representable <;> infer_instance

/-- The rational number a finite value stands for (`0` for NaN and the
infinities). -/
def toRat : FP f → ℚ
  | fin s n => (units s n : ℚ) / (2 : ℚ) ^ f.E
  | _ => 0

end FP

/-- Units of `2^(-1074)` of the `double` nearest to the literal
`3.1415926535897932385`, that is `0x1.921FB54442D18p+1`. -/
def piDoubleUnits : Nat := 7074237752028440 * 2 ^ 1023

/-- Magnitude of `pi<T>` in units of `2^(-f.E)`. -/
def piMag (f : Format) : Nat := rndMag f (piDoubleUnits * 2 ^ f.E) (2 ^ 1074)

/-- Source `pi<T>`, that is `static_cast<T>(3.1415926535897932385)`: the
literal is a `double` literal, converted to the format `f`. -/
def pi (f : Format) : FP f :=
  FP.cast f (FP.ofDecimal binary64 31415926535897932385 19)

/-- Source `area_of_circle_with_radius`, that is `return pi<T> * r * r;`
(C++ multiplication associates to the left). -/
def area_of_circle_with_radius {f : Format} (r : FP f) : FP f :=
  pi f * r * r

/-- Source `main`: `radius = 5.0`, the area that is printed, and the exit
code `0`. -/
def main : FP binary64 × FP binary64 × Nat :=
  let radius : FP binary64 := FP.ofDecimal binary64 50 1
  let area := area_of_circle_with_radius radius
  (radius, area, 0)


/-- The area of a finite radius of magnitude `n`, whatever its sign. -/
def areaOfMag (f : Format) (n : Nat) : FP f :=
  if 2 ^ f.W ≤ rndMag f (piMag f * n) (2 ^ f.E) then FP.inf false
  else roundNE f false (rndMag f (piMag f * n) (2 ^ f.E) * n) (2 ^ f.E)

/-- The rational value of `n` units of `2^(-f.E)`. -/
def unitVal (f : Format) (n : Nat) : ℚ := (n : ℚ) / (2 : ℚ) ^ f.E

/-- The unit roundoff `2^(-p)` of the format. -/
def unitRoundoff (f : Format) : ℚ := 1 / (2 : ℚ) ^ f.p

/-- Normal values: finite, and at least the least normal magnitude
`2^(p-1)` units (so neither an overflow nor a subnormal or zero). -/
def FP.isNormal {f : Format} : FP f → Bool
  | FP.fin _ n => decide (2 ^ (f.p - 1) ≤ n ∧ n < 2 ^ f.W)
  | _ => false

/-- Relative tolerance of the scaling property: seven roundings of relative
error `u = 2^(-p)` separate the two sides, which gives the factor
`((1 + u) / (1 - u))^4`, about `1 + 8 u`. -/
def scalingTol (f : Format) : ℚ :=
  ((1 + unitRoundoff f) / (1 - unitRoundoff f)) ^ 4 - 1

/-- Closeness `x ≈ y` within the relative tolerance `tol`: both are finite and
`|x - y| <= tol * |y|`. -/
def CloseTo {f : Format} (tol : ℚ) (x y : FP f) : Prop :=
  x.isFinite = true ∧ y.isFinite = true ∧
  |FP.toRat x - FP.toRat y| ≤ tol * |FP.toRat y|

/-- The `double` value `3.0`, used as a sample scale factor. -/
def sampleScale : FP binary64 := FP.fin false (3 * 2 ^ 1074)

/-- The `double` value `-5.0`, used as a sample radius. -/
def sampleRadius : FP binary64 := FP.fin true (5 * 2 ^ 1074)

/-! ## Bit length and rounding -/

theorem bitLenAux_le_iff (fuel : Nat) :
    ∀ n k : Nat, n ≤ fuel → (bitLenAux fuel n ≤ k ↔ n < 2 ^ k) := by
  induction fuel with
  | zero =>
    intro n k h
    have hn : n = 0 := by omega
    subst hn
    simp [bitLenAux]
  | succ fuel ih =>
    intro n k h
    unfold bitLenAux
    by_cases hn : n = 0
    · subst hn; simp
    · rw [if_neg hn]
      cases k with
      | zero => simp; omega
      | succ j =>
        have h2 : n / 2 ≤ fuel := by omega
        rw [Nat.add_le_add_iff_right, ih (n / 2) j h2, pow_succ]
        omega

theorem bitLen_le_iff (n k : Nat) : bitLen n ≤ k ↔ n < 2 ^ k :=
  bitLenAux_le_iff n n k (Nat.le_refl n)

theorem lt_pow_bitLen (n : Nat) : n < 2 ^ bitLen n :=
  (bitLen_le_iff n (bitLen n)).1 (Nat.le_refl _)

theorem lt_bitLen_iff (n k : Nat) : k < bitLen n ↔ 2 ^ k ≤ n := by
  rw [← Nat.not_le, bitLen_le_iff, Nat.not_lt]

theorem bitLen_mono {m n : Nat} (h : m ≤ n) : bitLen m ≤ bitLen n := by
  rw [bitLen_le_iff]
  exact Nat.lt_of_le_of_lt h (lt_pow_bitLen n)

theorem roundQuot_ge (a D : Nat) : a / D ≤ roundQuot a D := by
  unfold roundQuot; split_ifs <;> omega

theorem roundQuot_le (a D : Nat) : roundQuot a D ≤ a / D + 1 := by
  unfold roundQuot; split_ifs <;> omega

theorem roundQuot_mono {a a' D : Nat} (hD : 0 < D) (h : a ≤ a') :
    roundQuot a D ≤ roundQuot a' D := by
  have hq : a / D ≤ a' / D := Nat.div_le_div_right h
  rcases Nat.lt_or_ge (a / D) (a' / D) with hlt | hge
  · exact Nat.le_trans (roundQuot_le a D) (Nat.le_trans hlt (roundQuot_ge a' D))
  · have he : a / D = a' / D := Nat.le_antisymm hq hge
    have h1 := Nat.div_add_mod a D
    have h2 := Nat.div_add_mod a' D
    have h3 := Nat.mod_lt a hD
    have h4 := Nat.mod_lt a' hD
    rw [he] at h1
    unfold roundQuot
    rw [he]
    generalize D * (a' / D) = X at h1 h2
    split_ifs <;> omega

/-- Twice the rounding error of `roundQuot` is at most one spacing. -/
theorem roundQuot_err {a D : Nat} (hD : 0 < D) :
    2 * (roundQuot a D * D) ≤ 2 * a + D ∧ 2 * a ≤ 2 * (roundQuot a D * D) + D := by
  have h1 := Nat.div_add_mod a D
  have h3 := Nat.mod_lt a hD
  unfold roundQuot
  split_ifs with h
  · rw [Nat.add_mul, Nat.mul_comm (a / D) D]
    generalize D * (a / D) = X at h1
    omega
  · rw [Nat.mul_comm (a / D) D]
    generalize D * (a / D) = X at h1
    omega

/-- Rounding never passes the next power of two. -/
theorem rndMag_le_pow (f : Format) (a b : Nat) :
    rndMag f a b ≤ 2 ^ bitLen (a / b) := by
  unfold rndMag
  simp only
  set L := bitLen (a / b) with hL
  set k := L - f.p with hk
  have hkL : k ≤ L := by omega
  have hx : a / b < 2 ^ L := lt_pow_bitLen _
  have hq : a / (b * 2 ^ k) < 2 ^ (L - k) := by
    rw [← Nat.div_div_eq_div_mul, Nat.div_lt_iff_lt_mul (by positivity), ← pow_add]
    rwa [Nat.sub_add_cancel hkL]
  calc roundQuot a (b * 2 ^ k) * 2 ^ k ≤ (a / (b * 2 ^ k) + 1) * 2 ^ k :=
        Nat.mul_le_mul_right _ (roundQuot_le _ _)
    _ ≤ 2 ^ (L - k) * 2 ^ k := Nat.mul_le_mul_right _ hq
    _ = 2 ^ L := by rw [← pow_add, Nat.sub_add_cancel hkL]

/-- Rounding never falls below the previous power of two. -/
theorem pow_le_rndMag (f : Format) (hp : 1 ≤ f.p) (a b : Nat) (hx : a / b ≠ 0) :
    2 ^ (bitLen (a / b) - 1) ≤ rndMag f a b := by
  unfold rndMag
  simp only
  set L := bitLen (a / b) with hL
  set k := L - f.p with hk
  have hL1 : 0 < L := by
    rw [hL, lt_bitLen_iff]; simpa using Nat.pos_of_ne_zero hx
  have hkL : k ≤ L - 1 := by omega
  have hx2 : 2 ^ (L - 1) ≤ a / b := (lt_bitLen_iff _ _).1 (by omega)
  have hq : 2 ^ (L - 1 - k) ≤ a / (b * 2 ^ k) := by
    rw [← Nat.div_div_eq_div_mul, Nat.le_div_iff_mul_le (by positivity), ← pow_add,
      Nat.sub_add_cancel hkL]
    exact hx2
  calc 2 ^ (L - 1) = 2 ^ (L - 1 - k) * 2 ^ k := by rw [← pow_add, Nat.sub_add_cancel hkL]
    _ ≤ a / (b * 2 ^ k) * 2 ^ k := Nat.mul_le_mul_right _ hq
    _ ≤ roundQuot a (b * 2 ^ k) * 2 ^ k := Nat.mul_le_mul_right _ (roundQuot_ge _ _)

theorem rndMag_zero (f : Format) (b : Nat) : rndMag f 0 b = 0 := by
  simp [rndMag, roundQuot]

/-- Rounding to nearest is monotone. -/
theorem rndMag_mono (f : Format) (hp : 1 ≤ f.p) {a a' b : Nat} (hb : 0 < b) (h : a ≤ a') :
    rndMag f a b ≤ rndMag f a' b := by
  have hx : a / b ≤ a' / b := Nat.div_le_div_right h
  have hL : bitLen (a / b) ≤ bitLen (a' / b) := bitLen_mono hx
  rcases Nat.lt_or_ge (bitLen (a / b)) (bitLen (a' / b)) with hlt | hge
  · have hx' : a' / b ≠ 0 := by
      intro h0
      rw [h0] at hlt
      simp [bitLen, bitLenAux] at hlt
    calc rndMag f a b ≤ 2 ^ bitLen (a / b) := rndMag_le_pow f a b
      _ ≤ 2 ^ (bitLen (a' / b) - 1) := Nat.pow_le_pow_right (by norm_num) (by omega)
      _ ≤ rndMag f a' b := pow_le_rndMag f hp a' b hx'
  · have he : bitLen (a / b) = bitLen (a' / b) := Nat.le_antisymm hL hge
    unfold rndMag
    simp only
    rw [he]
    exact Nat.mul_le_mul_right _ (roundQuot_mono (by positivity) h)

/-! ## The constant and the area on finite radii -/

theorem ofDecimal_pi :
    FP.ofDecimal binary64 31415926535897932385 19 = FP.fin false piDoubleUnits := by
  decide!

theorem piDoubleUnits_lt : piDoubleUnits < 2 ^ 1076 := by decide!

theorem piMag_lt (f : Format) (hf : f.Valid) : piMag f < 2 ^ f.W := by
  have h1 : piDoubleUnits * 2 ^ f.E / 2 ^ 1074 < 2 ^ (f.E + 2) := by
    rw [Nat.div_lt_iff_lt_mul (by positivity)]
    calc piDoubleUnits * 2 ^ f.E < 2 ^ 1076 * 2 ^ f.E :=
          Nat.mul_lt_mul_of_pos_right piDoubleUnits_lt (by positivity)
      _ = 2 ^ (f.E + 2) * 2 ^ 1074 := by rw [← pow_add, ← pow_add]; congr 1; omega
  have h2 : bitLen (piDoubleUnits * 2 ^ f.E / 2 ^ 1074) ≤ f.E + 2 := (bitLen_le_iff _ _).2 h1
  calc piMag f ≤ 2 ^ bitLen (piDoubleUnits * 2 ^ f.E / 2 ^ 1074) := rndMag_le_pow f _ _
    _ ≤ 2 ^ (f.E + 2) := Nat.pow_le_pow_right (by norm_num) h2
    _ < 2 ^ f.W := Nat.pow_lt_pow_right (by norm_num) hf.2

theorem pi_eq_roundNE (f : Format) :
    pi f = roundNE f false (piDoubleUnits * 2 ^ f.E) (2 ^ 1074) := by
  unfold pi
  rw [ofDecimal_pi]
  simp only [FP.cast, binary64]

theorem pi_fin (f : Format) (hf : f.Valid) : pi f = FP.fin false (piMag f) := by
  have h := piMag_lt f hf
  rw [pi_eq_roundNE]
  unfold roundNE
  unfold piMag at h ⊢
  rw [if_neg (Nat.not_le.2 h)]

theorem area_fin (f : Format) (hf : f.Valid) (s : Bool) (n : Nat) :
    area_of_circle_with_radius (FP.fin s n : FP f) = areaOfMag f n := by
  unfold area_of_circle_with_radius areaOfMag
  rw [pi_fin f hf]
  show FP.mul (FP.mul (FP.fin false (piMag f)) (FP.fin s n)) (FP.fin s n) = _
  simp only [FP.mul, roundNE, Bool.false_xor]
  by_cases h : 2 ^ f.W ≤ rndMag f (piMag f * n) (2 ^ f.E)
  · have hn : n ≠ 0 := by
      rintro rfl
      rw [Nat.mul_zero, rndMag_zero] at h
      exact absurd h (Nat.not_le.2 (by positivity))
    simp [h, FP.mul, hn]
  · simp [h, FP.mul, roundNE]

theorem areaOfMag_cases (f : Format) (n : Nat) :
    areaOfMag f n = FP.inf false ∨ ∃ m, areaOfMag f n = FP.fin false m := by
  unfold areaOfMag roundNE
  split_ifs
  · exact Or.inl rfl
  · exact Or.inl rfl
  · exact Or.inr ⟨_, rfl⟩

theorem roundNE_le (f : Format) (hp : 1 ≤ f.p) {a a' b : Nat} (hb : 0 < b) (h : a ≤ a') :
    FP.le (roundNE f false a b) (roundNE f false a' b) = true := by
  have hm := rndMag_mono f hp hb h
  unfold roundNE
  split_ifs with h1 h2 h2
  · rfl
  · omega
  · rfl
  · simp [FP.le, FP.units, hm]

theorem areaOfMag_mono (f : Format) (hf : f.Valid) {m n : Nat} (h : m ≤ n) :
    FP.le (areaOfMag f m) (areaOfMag f n) = true := by
  have hE : 0 < 2 ^ f.E := by positivity
  have hg : rndMag f (piMag f * m) (2 ^ f.E) ≤ rndMag f (piMag f * n) (2 ^ f.E) :=
    rndMag_mono f hf.1 hE (Nat.mul_le_mul_left _ h)
  by_cases hn : 2 ^ f.W ≤ rndMag f (piMag f * n) (2 ^ f.E)
  · have e : areaOfMag f n = FP.inf false := by simp [areaOfMag, hn]
    rw [e]
    rcases areaOfMag_cases f m with h1 | ⟨k, h1⟩ <;> rw [h1] <;> rfl
  · have hm : ¬ 2 ^ f.W ≤ rndMag f (piMag f * m) (2 ^ f.E) := by omega
    unfold areaOfMag
    rw [if_neg hn, if_neg hm]
    exact roundNE_le f hf.1 hE (Nat.mul_le_mul hg h)


theorem toRat_fin_mul_pow (f : Format) (s : Bool) (m j : Nat) (hj : j ≤ f.E) :
    FP.toRat (FP.fin s (m * 2 ^ j) : FP f) = (FP.units s m : ℚ) / (2 : ℚ) ^ (f.E - j) := by
  have h2 : (2 : ℚ) ^ f.E = 2 ^ (f.E - j) * 2 ^ j := by
    rw [← pow_add, Nat.sub_add_cancel hj]
  unfold FP.toRat FP.units
  rw [h2]
  cases s <;> simp <;> field_simp <;> ring

theorem area_five :
    area_of_circle_with_radius (FP.ofDecimal binary64 50 1) =
      (FP.fin false (5526748243772219 * 2 ^ 1028) : FP binary64) := by
  decide!

theorem pi_binary64 : pi binary64 = FP.fin false (7074237752028440 * 2 ^ 1023) := by
  decide!

/-! ## Rounding returns a nearest value of the format -/

/-- The rounded quotient has full precision once the result is normal. -/
theorem roundQuot_ge_of_normal (f : Format) (hp : 1 ≤ f.p) (a b : Nat)
    (hn : 2 ^ (f.p - 1) ≤ rndMag f a b) :
    2 ^ (f.p - 1) ≤ roundQuot a (b * 2 ^ (bitLen (a / b) - f.p)) := by
  unfold rndMag at hn
  simp only at hn
  set L := bitLen (a / b) with hL
  rcases Nat.eq_zero_or_pos (L - f.p) with hk | hk
  · rw [hk] at hn ⊢
    simpa using hn
  · have hkL : L - f.p ≤ L - 1 := by omega
    have hx2 : 2 ^ (L - 1) ≤ a / b := (lt_bitLen_iff _ _).1 (by omega)
    have hq : 2 ^ (L - 1 - (L - f.p)) ≤ a / (b * 2 ^ (L - f.p)) := by
      rw [← Nat.div_div_eq_div_mul, Nat.le_div_iff_mul_le (by positivity), ← pow_add,
        Nat.sub_add_cancel hkL]
      exact hx2
    have he : L - 1 - (L - f.p) = f.p - 1 := by omega
    rw [he] at hq
    exact Nat.le_trans hq (roundQuot_ge _ _)

/-- Relative error of a rounding whose result is normal: at most `2^(-p)` of
the result. -/
theorem rndMag_rel_err (f : Format) (hp : 1 ≤ f.p) (a : Nat) {b : Nat} (hb : 0 < b)
    (hn : 2 ^ (f.p - 1) ≤ rndMag f a b) :
    2 ^ f.p * (rndMag f a b * b) ≤ 2 ^ f.p * a + rndMag f a b * b ∧
    2 ^ f.p * a ≤ 2 ^ f.p * (rndMag f a b * b) + rndMag f a b * b := by
  have hQ := roundQuot_ge_of_normal f hp a b hn
  have hR : rndMag f a b * b =
      roundQuot a (b * 2 ^ (bitLen (a / b) - f.p)) * (b * 2 ^ (bitLen (a / b) - f.p)) := by
    unfold rndMag; simp only; ring
  rw [hR]
  set D := b * 2 ^ (bitLen (a / b) - f.p) with hD
  set Q := roundQuot a D with hQd
  have hDpos : 0 < D := by positivity
  obtain ⟨e1, e2⟩ := roundQuot_err (a := a) hDpos
  rw [← hQd] at e1 e2
  have hp2 : 2 ^ f.p = 2 * 2 ^ (f.p - 1) := by
    rw [← pow_succ']; congr 1; omega
  have hQD : 2 ^ (f.p - 1) * D ≤ Q * D := Nat.mul_le_mul_right _ hQ
  rw [hp2]
  generalize 2 ^ (f.p - 1) = H at hQD ⊢
  constructor
  · nlinarith
  · nlinarith

/-- A product whose rounded magnitude `R` is normal satisfies
`(1 - u) R <= m n <= (1 + u) R`. -/
theorem mul_rel_err (f : Format) (hp : 1 ≤ f.p) (m n : Nat)
    (hn : 2 ^ (f.p - 1) ≤ rndMag f (m * n) (2 ^ f.E)) :
    (1 - unitRoundoff f) * unitVal f (rndMag f (m * n) (2 ^ f.E)) ≤ unitVal f m * unitVal f n ∧
    unitVal f m * unitVal f n ≤ (1 + unitRoundoff f) * unitVal f (rndMag f (m * n) (2 ^ f.E)) := by
  obtain ⟨h1, h2⟩ := rndMag_rel_err f hp (m * n) (by positivity : 0 < 2 ^ f.E) hn
  generalize rndMag f (m * n) (2 ^ f.E) = R at h1 h2
  have h1q : (2 : ℚ) ^ f.p * ((R : ℚ) * 2 ^ f.E) ≤ 2 ^ f.p * ((m : ℚ) * n) + R * 2 ^ f.E := by
    exact_mod_cast h1
  have h2q : (2 : ℚ) ^ f.p * ((m : ℚ) * n) ≤ 2 ^ f.p * ((R : ℚ) * 2 ^ f.E) + R * 2 ^ f.E := by
    exact_mod_cast h2
  unfold unitVal unitRoundoff
  have hP : (0 : ℚ) < 2 ^ f.p := by positivity
  have hE : (0 : ℚ) < 2 ^ f.E := by positivity
  generalize (2 : ℚ) ^ f.p = P at *
  generalize (2 : ℚ) ^ f.E = T at *
  constructor
  · rw [← sub_nonneg]
    have e : (m : ℚ) / T * (n / T) - (1 - 1 / P) * (R / T)
        = (P * (m * n) + R * T - P * (R * T)) / (P * T * T) := by
      field_simp; ring
    rw [e]
    apply div_nonneg _ (by positivity)
    linarith
  · rw [← sub_nonneg]
    have e : (1 + 1 / P) * (R / T) - (m : ℚ) / T * (n / T)
        = (P * (R * T) + R * T - P * (m * n)) / (P * T * T) := by
      field_simp; ring
    rw [e]
    apply div_nonneg _ (by positivity)
    linarith

/-- Error propagation through the two evaluation orders: with every rounding
within relative `u` of its result, `area(k*r)` (`y1`) and `(k*k) * area(r)`
(`y2`) are within the factor `((1+u)/(1-u))^4` of each other. -/
theorem scaling_chain (u c k r t A y1 B C K y2 : ℚ) (hu0 : 0 ≤ u) (hu1 : u < 1)
    (hc : 0 ≤ c) (hk : 0 ≤ k) (hr : 0 ≤ r) (ht0 : 0 ≤ t)
    (hB0 : 0 ≤ B) (hC0 : 0 ≤ C) (hK0 : 0 ≤ K)
    (ht : (1 - u) * t ≤ k * r ∧ k * r ≤ (1 + u) * t)
    (hA : (1 - u) * A ≤ c * t ∧ c * t ≤ (1 + u) * A)
    (hy1 : (1 - u) * y1 ≤ A * t ∧ A * t ≤ (1 + u) * y1)
    (hB : (1 - u) * B ≤ c * r ∧ c * r ≤ (1 + u) * B)
    (hC : (1 - u) * C ≤ B * r ∧ B * r ≤ (1 + u) * C)
    (hK : (1 - u) * K ≤ k * k ∧ k * k ≤ (1 + u) * K)
    (hy2 : (1 - u) * y2 ≤ K * C ∧ K * C ≤ (1 + u) * y2) :
    (1 - u) ^ 4 * y1 ≤ (1 + u) ^ 4 * y2 ∧ (1 - u) ^ 4 * y2 ≤ (1 + u) ^ 4 * y1 := by
  have hm : 0 ≤ 1 - u := by linarith
  have hp : 0 ≤ 1 + u := by linarith
  have hmt : 0 ≤ (1 - u) * t := mul_nonneg hm ht0
  have hkr : 0 ≤ k * r := mul_nonneg hk hr
  have hkk : 0 ≤ k * k := mul_nonneg hk hk
  -- the exact product `c (k r) (k r)` sits between the bounds of both results
  have l1 : (1 - u) ^ 4 * y1 ≤ c * (k * r) * (k * r) := by
    calc (1 - u) ^ 4 * y1 = (1 - u) ^ 3 * ((1 - u) * y1) := by ring
      _ ≤ (1 - u) ^ 3 * (A * t) := mul_le_mul_of_nonneg_left hy1.1 (pow_nonneg hm 3)
      _ = (1 - u) ^ 2 * t * ((1 - u) * A) := by ring
      _ ≤ (1 - u) ^ 2 * t * (c * t) :=
          mul_le_mul_of_nonneg_left hA.1 (mul_nonneg (pow_nonneg hm 2) ht0)
      _ = c * (((1 - u) * t) * ((1 - u) * t)) := by ring
      _ ≤ c * ((k * r) * (k * r)) :=
          mul_le_mul_of_nonneg_left (mul_le_mul ht.1 ht.1 hmt hkr) hc
      _ = c * (k * r) * (k * r) := by ring
  have u1 : c * (k * r) * (k * r) ≤ (1 + u) ^ 4 * y1 := by
    calc c * (k * r) * (k * r) = c * ((k * r) * (k * r)) := by ring
      _ ≤ c * (((1 + u) * t) * ((1 + u) * t)) :=
          mul_le_mul_of_nonneg_left
            (mul_le_mul ht.2 ht.2 hkr (mul_nonneg hp ht0)) hc
      _ = (1 + u) ^ 2 * t * (c * t) := by ring
      _ ≤ (1 + u) ^ 2 * t * ((1 + u) * A) :=
          mul_le_mul_of_nonneg_left hA.2 (mul_nonneg (pow_nonneg hp 2) ht0)
      _ = (1 + u) ^ 3 * (A * t) := by ring
      _ ≤ (1 + u) ^ 3 * ((1 + u) * y1) := mul_le_mul_of_nonneg_left hy1.2 (pow_nonneg hp 3)
      _ = (1 + u) ^ 4 * y1 := by ring
  have l2 : (1 - u) ^ 4 * y2 ≤ c * (k * r) * (k * r) := by
    calc (1 - u) ^ 4 * y2 = (1 - u) ^ 3 * ((1 - u) * y2) := by ring
      _ ≤ (1 - u) ^ 3 * (K * C) := mul_le_mul_of_nonneg_left hy2.1 (pow_nonneg hm 3)
      _ = (1 - u) * (((1 - u) * K) * ((1 - u) * C)) := by ring
      _ ≤ (1 - u) * ((k * k) * (B * r)) :=
          mul_le_mul_of_nonneg_left
            (mul_le_mul hK.1 hC.1 (mul_nonneg hm hC0) hkk) hm
      _ = (k * k) * r * ((1 - u) * B) := by ring
      _ ≤ (k * k) * r * (c * r) :=
          mul_le_mul_of_nonneg_left hB.1 (mul_nonneg hkk hr)
      _ = c * (k * r) * (k * r) := by ring
  have u2 : c * (k * r) * (k * r) ≤ (1 + u) ^ 4 * y2 := by
    calc c * (k * r) * (k * r) = (k * k) * r * (c * r) := by ring
      _ ≤ (k * k) * r * ((1 + u) * B) :=
          mul_le_mul_of_nonneg_left hB.2 (mul_nonneg hkk hr)
      _ = (1 + u) * ((k * k) * (B * r)) := by ring
      _ ≤ (1 + u) * (((1 + u) * K) * ((1 + u) * C)) :=
          mul_le_mul_of_nonneg_left
            (mul_le_mul hK.2 hC.2 (mul_nonneg hB0 hr) (mul_nonneg hp hK0)) hp
      _ = (1 + u) ^ 3 * (K * C) := by ring
      _ ≤ (1 + u) ^ 3 * ((1 + u) * y2) := mul_le_mul_of_nonneg_left hy2.2 (pow_nonneg hp 3)
      _ = (1 + u) ^ 4 * y2 := by ring
  exact ⟨le_trans l1 u2, le_trans l2 u1⟩


theorem isNormal_mul_finite {f : Format} {x y : FP f} (h : (FP.mul x y).isNormal = true) :
    x.isFinite = true ∧ y.isFinite = true := by
  cases x with
  | nan => simp [FP.mul, FP.isNormal] at h
  | inf s =>
    cases y with
    | nan => simp [FP.mul, FP.isNormal] at h
    | inf t => simp [FP.mul, FP.isNormal] at h
    | fin t n =>
      by_cases hn : n = 0 <;> simp [FP.mul, FP.isNormal, hn] at h
  | fin s m =>
    cases y with
    | nan => simp [FP.mul, FP.isNormal] at h
    | inf t =>
      by_cases hm : m = 0 <;> simp [FP.mul, FP.isNormal, hm] at h
    | fin t n => exact ⟨rfl, rfl⟩

theorem isNormal_mul_fin {f : Format} (s : Bool) (m : Nat) (t : Bool) (n : Nat)
    (h : (FP.mul (FP.fin s m : FP f) (FP.fin t n)).isNormal = true) :
    FP.mul (FP.fin s m : FP f) (FP.fin t n) = FP.fin (xor s t) (rndMag f (m * n) (2 ^ f.E)) ∧
    2 ^ (f.p - 1) ≤ rndMag f (m * n) (2 ^ f.E) := by
  simp only [FP.mul, roundNE] at h ⊢
  split_ifs at h ⊢ with h1
  · simp [FP.isNormal] at h
  · simp only [FP.isNormal, decide_eq_true_eq] at h
    exact ⟨rfl, h.1⟩

theorem close_of_ratio (a b Y1 Y2 : ℚ) (ha : 0 < a) (hab : a ≤ b) (hY2 : 0 ≤ Y2)
    (h1 : a * Y1 ≤ b * Y2) (h2 : a * Y2 ≤ b * Y1) :
    |Y1 - Y2| ≤ (b / a - 1) * Y2 := by
  have hb : 0 < b := lt_of_lt_of_le ha hab
  have e : (b / a - 1) * Y2 = (b * Y2 - a * Y2) / a := by
    field_simp; ring
  have hd : (b * Y2 - a * Y2) / a * a = b * Y2 - a * Y2 := div_mul_cancel₀ _ ha.ne.symm
  rw [e]
  generalize (b * Y2 - a * Y2) / a = d at hd
  rw [abs_le]
  constructor
  · -- `a (Y2 - Y1) <= (b - a) Y2`, through `b`
    have h3 : a * (a * Y2) ≤ a * (b * Y1) := mul_le_mul_of_nonneg_left h2 ha.le
    have h4 : 0 ≤ (b - a) ^ 2 * Y2 := mul_nonneg (sq_nonneg _) hY2
    have h5 : 0 ≤ b * ((Y1 - Y2) * a + (b * Y2 - a * Y2)) := by nlinarith
    have h6 := nonneg_of_mul_nonneg_right h5 hb
    have h7 : a * (-d) ≤ a * (Y1 - Y2) := by linarith
    exact le_of_mul_le_mul_left h7 ha
  · have h7 : a * (Y1 - Y2) ≤ a * d := by linarith
    exact le_of_mul_le_mul_left h7 ha

theorem unitRoundoff_bounds (f : Format) (hp : 1 ≤ f.p) :
    0 ≤ unitRoundoff f ∧ unitRoundoff f < 1 := by
  unfold unitRoundoff
  constructor
  · positivity
  · rw [div_lt_one (by positivity)]
    exact one_lt_pow₀ (by norm_num) (by omega)

theorem toRat_fin_false (f : Format) (n : Nat) :
    FP.toRat (FP.fin false n : FP f) = unitVal f n := by
  simp [FP.toRat, FP.units, unitVal]

theorem unitVal_nonneg (f : Format) (n : Nat) : 0 ≤ unitVal f n := by
  unfold unitVal; positivity

theorem scalingTol_binary64_lt : scalingTol binary64 < 1 / 10 ^ 15 := by
  unfold scalingTol unitRoundoff
  simp only [binary64]
  norm_num

theorem area_one :
    area_of_circle_with_radius (FP.ofDecimal binary64 1 0) =
      (FP.fin false (7074237752028440 * 2 ^ 1023) : FP binary64) := by
  decide!

/-! ## The claims -/

/-- C1: for every format and every radius, `area_of_circle_with_radius r` is
the product `(pi * r) * r`, grouped to the left; the grouping matters, since
at the `double` radius `11.0` the other grouping `pi * (r * r)` gives a
different value. -/
theorem C1_area_is_left_to_right_product :
    (∀ (f : Format) (r : FP f),
      area_of_circle_with_radius r = FP.mul (FP.mul (pi f) r) r) ∧
    ∃ r : FP binary64, r.Representable ∧ r.isFinite = true ∧
      area_of_circle_with_radius r ≠ FP.mul (pi binary64) (FP.mul r r) := by
  refine ⟨fun f r => rfl, FP.fin false (11 * 2 ^ 1074), ?_, rfl, ?_⟩
  · decide!
  · decide!

/-- C2: for every finite radius `r`, `area(r) == area(-r)`, and the two
results are even the same value of the format. -/
theorem C2_sign_symmetry (f : Format) (hf : f.Valid) (r : FP f)
    (hr : r.isFinite = true) :
    FP.eq (area_of_circle_with_radius r) (area_of_circle_with_radius (FP.neg r)) = true ∧
    area_of_circle_with_radius r = area_of_circle_with_radius (FP.neg r) := by
  cases r with
  | nan => simp [FP.isFinite] at hr
  | inf s => simp [FP.isFinite] at hr
  | fin s n =>
    simp only [FP.neg]
    rw [area_fin f hf, area_fin f hf]
    refine ⟨?_, rfl⟩
    rcases areaOfMag_cases f n with h | ⟨m, h⟩ <;> rw [h] <;> simp [FP.eq]

/-- Witness of C2 at the `double` radius `-3.0`. -/
theorem C2_sign_symmetry_witness :
    binary64.Valid ∧ (FP.fin true (3 * 2 ^ 1074) : FP binary64).isFinite = true ∧
    FP.eq (area_of_circle_with_radius (FP.fin true (3 * 2 ^ 1074) : FP binary64))
      (area_of_circle_with_radius (FP.neg (FP.fin true (3 * 2 ^ 1074) : FP binary64))) = true :=
  ⟨by decide, rfl, (C2_sign_symmetry binary64 (by decide) (FP.fin true (3 * 2 ^ 1074)) rfl).1⟩

/-- C3 as stated fails: with the `double` values `k = 2^600` and
`r = 2^(-600)`, `k * r` is `1.0` and `area(k*r)` is `pi`, but `area(r)`
underflows to `0` and `k * k` overflows, so `(k*k) * area(r)` is NaN; no
tolerance makes the two sides close. -/
theorem C3_scaling_counterexample :
    ((FP.fin false (2 ^ 1674) : FP binary64).isFinite = true ∧
      (FP.fin false (2 ^ 1674) : FP binary64).Representable ∧
      (FP.fin false (2 ^ 474) : FP binary64).isFinite = true ∧
      (FP.fin false (2 ^ 474) : FP binary64).Representable) ∧
    area_of_circle_with_radius
      (FP.mul (FP.fin false (2 ^ 1674) : FP binary64) (FP.fin false (2 ^ 474))) = pi binary64 ∧
    area_of_circle_with_radius (FP.fin false (2 ^ 474) : FP binary64) = FP.fin false 0 ∧
    FP.mul (FP.mul (FP.fin false (2 ^ 1674) : FP binary64) (FP.fin false (2 ^ 1674)))
      (area_of_circle_with_radius (FP.fin false (2 ^ 474) : FP binary64)) = FP.nan ∧
    ∀ tol : ℚ, ¬ CloseTo tol
      (area_of_circle_with_radius
        (FP.mul (FP.fin false (2 ^ 1674) : FP binary64) (FP.fin false (2 ^ 474))))
      (FP.mul (FP.mul (FP.fin false (2 ^ 1674) : FP binary64) (FP.fin false (2 ^ 1674)))
        (area_of_circle_with_radius (FP.fin false (2 ^ 474) : FP binary64))) := by
  have hnan : FP.mul (FP.mul (FP.fin false (2 ^ 1674) : FP binary64) (FP.fin false (2 ^ 1674)))
      (area_of_circle_with_radius (FP.fin false (2 ^ 474) : FP binary64)) = FP.nan := by
    decide!
  refine ⟨⟨rfl, by decide!, rfl, by decide!⟩, by decide!, by decide!, hnan, ?_⟩
  intro tol h
  have h2 := h.2.1
  rw [hnan] at h2
  simp [FP.isFinite] at h2

/-- C3 (amended): scaling holds within the tolerance `scalingTol f` as long as
none of the seven products involved overflows or falls below the normal
range. -/
theorem C3_scaling_within_tolerance (f : Format) (hf : f.Valid) (k r : FP f)
    (h1 : (FP.mul k r).isNormal = true)
    (h2 : (FP.mul (pi f) (FP.mul k r)).isNormal = true)
    (h3 : (area_of_circle_with_radius (FP.mul k r)).isNormal = true)
    (h4 : (FP.mul (pi f) r).isNormal = true)
    (h5 : (area_of_circle_with_radius r).isNormal = true)
    (h6 : (FP.mul k k).isNormal = true)
    (h7 : (FP.mul (FP.mul k k) (area_of_circle_with_radius r)).isNormal = true) :
    CloseTo (scalingTol f) (area_of_circle_with_radius (FP.mul k r))
      (FP.mul (FP.mul k k) (area_of_circle_with_radius r)) := by
  have hA : ∀ x : FP f, area_of_circle_with_radius x = FP.mul (FP.mul (pi f) x) x :=
    fun x => rfl
  rw [hA] at h3 h5 h7 ⊢
  rw [hA]
  obtain ⟨hkf, hrf⟩ := isNormal_mul_finite h1
  cases k with
  | nan => simp [FP.isFinite] at hkf
  | inf s => simp [FP.isFinite] at hkf
  | fin sk nk =>
  cases r with
  | nan => simp [FP.isFinite] at hrf
  | inf s => simp [FP.isFinite] at hrf
  | fin sr nr =>
  rw [pi_fin f hf] at h2 h3 h4 h5 h7 ⊢
  obtain ⟨e1, n1⟩ := isNormal_mul_fin _ _ _ _ h1
  rw [e1] at h2 h3 ⊢
  obtain ⟨e2, n2⟩ := isNormal_mul_fin _ _ _ _ h2
  rw [e2] at h3 ⊢
  obtain ⟨e3, n3⟩ := isNormal_mul_fin _ _ _ _ h3
  obtain ⟨e4, n4⟩ := isNormal_mul_fin _ _ _ _ h4
  rw [e4] at h5 h7 ⊢
  obtain ⟨e5, n5⟩ := isNormal_mul_fin _ _ _ _ h5
  rw [e5] at h7 ⊢
  obtain ⟨e6, n6⟩ := isNormal_mul_fin _ _ _ _ h6
  rw [e6] at h7 ⊢
  obtain ⟨e7, n7⟩ := isNormal_mul_fin _ _ _ _ h7
  rw [e3, e7]
  have hp := hf.1
  have c1 := mul_rel_err f hp _ _ n1
  have c2 := mul_rel_err f hp _ _ n2
  have c3 := mul_rel_err f hp _ _ n3
  have c4 := mul_rel_err f hp _ _ n4
  have c5 := mul_rel_err f hp _ _ n5
  have c6 := mul_rel_err f hp _ _ n6
  have c7 := mul_rel_err f hp _ _ n7
  obtain ⟨hu0, hu1⟩ := unitRoundoff_bounds f hp
  have hch := scaling_chain (unitRoundoff f) (unitVal f (piMag f)) (unitVal f nk)
    (unitVal f nr) _ _ _ _ _ _ _ hu0 hu1 (unitVal_nonneg _ _) (unitVal_nonneg _ _)
    (unitVal_nonneg _ _) (unitVal_nonneg _ _) (unitVal_nonneg _ _) (unitVal_nonneg _ _)
    (unitVal_nonneg _ _) c1 c2 c3 c4 c5 c6 c7
  simp only [Bool.false_xor, Bool.xor_self] at hch ⊢
  refine ⟨rfl, rfl, ?_⟩
  rw [toRat_fin_false, toRat_fin_false, abs_of_nonneg (unitVal_nonneg _ _)]
  have ha : 0 < (1 - unitRoundoff f) ^ 4 := pow_pos (by linarith) 4
  have hab : (1 - unitRoundoff f) ^ 4 ≤ (1 + unitRoundoff f) ^ 4 :=
    pow_le_pow_left₀ (by linarith) (by linarith) 4
  have := close_of_ratio _ _ _ _ ha hab (unitVal_nonneg _ _) hch.1 hch.2
  unfold scalingTol
  rw [div_pow]
  exact this

/-- Witness of C3 (amended) at the `double` values `k = 3.0`, `r = -5.0`. -/
theorem C3_scaling_within_tolerance_witness :
    binary64.Valid ∧
    (FP.mul sampleScale sampleRadius).isNormal = true ∧
    (FP.mul (pi binary64) (FP.mul sampleScale sampleRadius)).isNormal = true ∧
    (area_of_circle_with_radius (FP.mul sampleScale sampleRadius)).isNormal = true ∧
    (FP.mul (pi binary64) sampleRadius).isNormal = true ∧
    (area_of_circle_with_radius sampleRadius).isNormal = true ∧
    (FP.mul sampleScale sampleScale).isNormal = true ∧
    (FP.mul (FP.mul sampleScale sampleScale)
      (area_of_circle_with_radius sampleRadius)).isNormal = true ∧
    CloseTo (scalingTol binary64)
      (area_of_circle_with_radius (FP.mul sampleScale sampleRadius))
      (FP.mul (FP.mul sampleScale sampleScale) (area_of_circle_with_radius sampleRadius)) :=
  ⟨by decide, by decide!, by decide!, by decide!, by decide!, by decide!, by decide!,
   by decide!,
   C3_scaling_within_tolerance binary64 (by decide) sampleScale sampleRadius
     (by decide!) (by decide!) (by decide!) (by decide!) (by decide!) (by decide!)
     (by decide!)⟩

/-- C4: for every finite radius, zero and negative ones included, the area
is a value `>= 0` (never NaN, never negative). -/
theorem C4_area_nonneg (f : Format) (hf : f.Valid) (r : FP f) (hr : r.isFinite = true) :
    FP.le (FP.fin false 0) (area_of_circle_with_radius r) = true := by
  cases r with
  | nan => simp [FP.isFinite] at hr
  | inf s => simp [FP.isFinite] at hr
  | fin s n =>
    rw [area_fin f hf]
    rcases areaOfMag_cases f n with h | ⟨m, h⟩ <;> rw [h] <;> simp [FP.le, FP.units]

/-- Witness of C4 at the `double` radius `-3.0`. -/
theorem C4_area_nonneg_witness :
    binary64.Valid ∧ (FP.fin true (3 * 2 ^ 1074) : FP binary64).isFinite = true ∧
    FP.le (FP.fin false 0)
      (area_of_circle_with_radius (FP.fin true (3 * 2 ^ 1074) : FP binary64)) = true :=
  ⟨by decide, rfl, C4_area_nonneg binary64 (by decide) (FP.fin true (3 * 2 ^ 1074)) rfl⟩

/-- C5: the area is a total function with no error value; an infinite or NaN
radius gives an infinite or NaN area, and (in a valid format) a finite
radius never gives NaN. -/
theorem C5_special_values_propagate (f : Format) (r : FP f) :
    (r.isFinite = false → (area_of_circle_with_radius r).isFinite = false) ∧
    (f.Valid → r.isFinite = true → (area_of_circle_with_radius r).isNaN = false) := by
  constructor
  · intro hr
    show (FP.mul (FP.mul (pi f) r) r).isFinite = false
    cases r with
    | nan => cases pi f <;> rfl
    | inf s =>
      cases pi f with
      | nan => rfl
      | inf t => rfl
      | fin t c =>
        by_cases hc : c = 0 <;> simp [FP.mul, hc, FP.isFinite]
    | fin s n => simp [FP.isFinite] at hr
  · intro hf hr
    cases r with
    | nan => simp [FP.isFinite] at hr
    | inf s => simp [FP.isFinite] at hr
    | fin s n =>
      rw [area_fin f hf]
      rcases areaOfMag_cases f n with h | ⟨m, h⟩ <;> rw [h] <;> rfl

/-- Witness of C5 at the `double` radii `-inf` and `-3.0`. -/
theorem C5_special_values_propagate_witness :
    (area_of_circle_with_radius (FP.inf true : FP binary64)).isFinite = false ∧
    (area_of_circle_with_radius (FP.fin true (3 * 2 ^ 1074) : FP binary64)).isNaN = false :=
  ⟨(C5_special_values_propagate binary64 (FP.inf true)).1 rfl,
   (C5_special_values_propagate binary64 (FP.fin true (3 * 2 ^ 1074))).2 (by decide) rfl⟩

/-- C6: at the `double` radius `5.0` that `main` uses, the area is the
`double` written `78.53981633974483` (it is `5526748243772219 / 2^46`, within
`5e-15` of that decimal), and the left-to-right product `(pi * 5.0) * 5.0`
is the same `double` as `pi * 25`. -/
theorem C6_area_five :
    main.1 = FP.ofDecimal binary64 50 1 ∧
    main.2.1 = area_of_circle_with_radius (FP.ofDecimal binary64 50 1) ∧
    main.2.2 = 0 ∧
    area_of_circle_with_radius (FP.ofDecimal binary64 50 1) =
      FP.ofDecimal binary64 7853981633974483 14 ∧
    area_of_circle_with_radius (FP.ofDecimal binary64 50 1) =
      FP.mul (pi binary64) (FP.ofDecimal binary64 25 0) ∧
    |FP.toRat (area_of_circle_with_radius (FP.ofDecimal binary64 50 1)) -
      7853981633974483 / 10 ^ 14| < 5 / 10 ^ 15 := by
  refine ⟨by simp only [main], by simp only [main], by simp only [main], by decide!, by decide!, ?_⟩
  rw [area_five, toRat_fin_mul_pow binary64 false _ 1028 (by decide)]
  simp only [FP.units, binary64]
  rw [abs_lt]
  constructor <;> norm_num

/-- C7: in every valid format the area of a zero radius (of either sign) is
the positive zero, so `area(0) == 0`. -/
theorem C7_area_zero (f : Format) (hf : f.Valid) (s : Bool) :
    area_of_circle_with_radius (FP.fin s 0 : FP f) = FP.fin false 0 ∧
    FP.eq (area_of_circle_with_radius (FP.fin s 0 : FP f)) (FP.fin false 0) = true := by
  have h : area_of_circle_with_radius (FP.fin s 0 : FP f) = FP.fin false 0 := by
    rw [area_fin f hf]
    have h0 : ¬ 2 ^ f.W ≤ 0 := Nat.not_le.2 (by positivity)
    simp [areaOfMag, roundNE, rndMag_zero, h0]
  rw [h]
  exact ⟨rfl, by simp [FP.eq]⟩

/-- Witness of C7 at `double`. -/
theorem C7_area_zero_witness :
    binary64.Valid ∧
    FP.eq (area_of_circle_with_radius (FP.fin false 0 : FP binary64)) (FP.fin false 0) = true :=
  ⟨by decide, (C7_area_zero binary64 (by decide) false).2⟩

/-- C8: in `double`, `area(1)` is the program's constant `pi<double>`
itself, and it differs from the mathematical constant pi by less than
`1e-9`. -/
theorem C8_area_one :
    area_of_circle_with_radius (FP.ofDecimal binary64 1 0) = pi binary64 ∧
    |((FP.toRat (area_of_circle_with_radius (FP.ofDecimal binary64 1 0)) : ℚ) : ℝ) - Real.pi|
      < 1 / 10 ^ 9 := by
  refine ⟨by decide!, ?_⟩
  rw [area_one, toRat_fin_mul_pow binary64 false _ 1023 (by decide)]
  simp only [FP.units, binary64]
  have h1 := Real.pi_gt_d20
  have h2 := Real.pi_lt_d20
  rw [abs_lt]
  constructor <;> norm_num at h1 h2 ⊢ <;> linarith

/-- C10: for finite radii `a`, `b` with `|a| <= |b|`, `area(a) <= area(b)`. -/
theorem C10_area_monotone (f : Format) (hf : f.Valid) (a b : FP f)
    (ha : a.isFinite = true) (hb : b.isFinite = true)
    (hab : FP.le (FP.abs a) (FP.abs b) = true) :
    FP.le (area_of_circle_with_radius a) (area_of_circle_with_radius b) = true := by
  cases a with
  | nan => simp [FP.isFinite] at ha
  | inf s => simp [FP.isFinite] at ha
  | fin s m =>
    cases b with
    | nan => simp [FP.isFinite] at hb
    | inf t => simp [FP.isFinite] at hb
    | fin t n =>
      rw [area_fin f hf, area_fin f hf]
      apply areaOfMag_mono f hf
      simpa [FP.abs, FP.le, FP.units] using hab

/-- Witness of C10 at the `double` radii `-3.0` and `5.0`. -/
theorem C10_area_monotone_witness :
    binary64.Valid ∧
    FP.le (FP.abs (FP.fin true (3 * 2 ^ 1074) : FP binary64))
      (FP.abs (FP.fin false (5 * 2 ^ 1074) : FP binary64)) = true ∧
    FP.le (area_of_circle_with_radius (FP.fin true (3 * 2 ^ 1074) : FP binary64))
      (area_of_circle_with_radius (FP.fin false (5 * 2 ^ 1074) : FP binary64)) = true :=
  ⟨by decide, by decide!,
   C10_area_monotone binary64 (by decide) _ _ rfl rfl (by decide!)⟩

end Study
